import Mathlib

/-!
Shallow embedding of the path-addressed tree model and selection algebra of the
evolu editor (packages/slad/models/path.ts, packages/evolu/models/selection.ts,
packages/evolu/models/element.ts, packages/evolu/types/index.ts), together with
theorems checking the natural-language specification against it.

Paths are sequences of non-negative integers, embedded as `List Nat`.
JavaScript functions that throw (via `invariant`) are embedded as
`Except String` computations.
-/

namespace Evolu

/-! ## Path algebra: packages/slad/models/path.ts -/

/-- Embeds `editorPathsAreEqual` (path.ts lines 12-21): length check followed by an
index-wise comparison.  The source's leading `path1 === path2` reference-equality test
is a pure shortcut with no observable effect on the result. -/
def editorPathsAreEqual (path1 path2 : List Nat) : Bool :=
  path1.length == path2.length &&
    (List.range path1.length).all fun i => path1.getD i 0 == path2.getD i 0

/-- Embeds `invariantPathIsNotEmpty` (path.ts lines 23-25): `invariant` throws with the
given message unless the path is non-empty; the throw is embedded as `Except.error`. -/
def invariantPathIsNotEmpty (path : List Nat) : Except String Unit :=
  if path.length > 0 then .ok () else .error "Path can not be empty."

/-- Embeds `parentPath` (path.ts lines 30-33): assert non-empty, then `path.slice(0, -1)`,
which is `List.dropLast`. -/
def parentPath (path : List Nat) : Except String (List Nat) := do
  invariantPathIsNotEmpty path
  pure path.dropLast

/-- Embeds `lastIndex` (path.ts lines 39-42): assert non-empty, then
`path[path.length - 1]`. -/
def lastIndex (path : List Nat) : Except String Nat := do
  invariantPathIsNotEmpty path
  pure (path.getD (path.length - 1) 0)

/-- Embeds `parentPathAndLastIndex` (path.ts lines 47-49): the pair of the two above. -/
def parentPathAndLastIndex (path : List Nat) : Except String (List Nat × Nat) := do
  let p ← parentPath path
  let l ← lastIndex path
  pure (p, l)

/-- Embeds `editorPathsAreForward` (path.ts lines 51-56):
`!anchorPath.some((value, index) => value > focusPath[index])`.
In JavaScript, when `index` is out of range of `focusPath`, `focusPath[index]` is
`undefined` and `value > undefined` is `false`, so once the focus path is exhausted no
remaining anchor index can witness the `some`; hence the recursion returns `true` when
the focus path runs out. -/
def editorPathsAreForward : List Nat → List Nat → Bool
  | [], _ => true
  | _ :: _, [] => true
  | a :: as, f :: fs => !(a > f) && editorPathsAreForward as fs

/-- The comparison stated by the specification sentence under check: lexicographic
(dictionary) order on index sequences, where a strict prefix precedes any extension.
This definition follows the claim's words, to be compared against
`editorPathsAreForward` above. -/
def lexLePath : List Nat → List Nat → Bool
  | [], _ => true
  | _ :: _, [] => false
  | a :: as, f :: fs => a < f || (a == f && lexLePath as fs)

/-! ## Selection model: packages/evolu/models/selection.ts -/

/-- Embeds the `Selection` interface (selection.ts lines 21-24): anchor and focus paths. -/
structure Selection where
  anchor : List Nat
  focus : List Nat
deriving DecidableEq, Repr

/-- Embeds the `Range` interface (types/index.ts lines 119-122).  The source field
`end` is a reserved word in Lean and is called `stop` here. -/
structure Range where
  start : List Nat
  stop : List Nat
deriving DecidableEq, Repr

/-- Embeds `isForwardSelection` (selection.ts lines 29-30), which is
`geq(byDirection)(selection.anchor, selection.focus)`.
Modelled from the spec: `byDirection` lives in packages/evolu/models/path.ts, which is
not in the source tree.  Spec section 4.3 states that `isForwardSelection` wraps the
path-algebra `isForward` comparison over anchor/focus, and section 4.1 describes that
comparison as: anchor is not after focus iff no index in anchor exceeds the
corresponding index in focus, indices beyond the shorter path always satisfying — the
comparison computed by `editorPathsAreForward`. -/
def isForwardSelection (selection : Selection) : Bool :=
  editorPathsAreForward selection.anchor selection.focus

/-- Embeds `mapSelectionToRange` (selection.ts lines 32-35): keep anchor/focus as
start/end on a forward selection, swap them otherwise. -/
def mapSelectionToRange (selection : Selection) : Range :=
  if isForwardSelection selection then
    { start := selection.anchor, stop := selection.focus }
  else
    { start := selection.focus, stop := selection.anchor }

/-- Host document nodes are opaque identities for the core; embedded as `Nat`. -/
abbrev DOMNode : Type := Nat

/-- Embeds the host selection snapshot consumed by `mapDOMSelectionToSelection`
(selection.ts lines 47-52): anchor/focus node (nullable, hence `Option`) and offsets. -/
structure DOMSelection where
  anchorNode : Option DOMNode
  anchorOffset : Nat
  focusNode : Option DOMNode
  focusOffset : Nat
deriving DecidableEq, Repr

/-- Embeds `mapDOMSelectionToSelection` (selection.ts lines 45-64):
`sequenceT(option)` of resolving each non-null node through `getPathByNode`
(a null node gives `none` directly), then `chain` building the selection with each
offset appended (`snoc`) to its resolved path. -/
def mapDOMSelectionToSelection (getPathByNode : DOMNode → Option (List Nat))
    (selection : DOMSelection) : Option Selection :=
  match (match selection.anchorNode with
         | some n => getPathByNode n
         | none => none),
        (match selection.focusNode with
         | some n => getPathByNode n
         | none => none) with
  | some anchorPath, some focusPath =>
      some { anchor := anchorPath ++ [selection.anchorOffset],
             focus := focusPath ++ [selection.focusOffset] }
  | _, _ => none

/-! ## Text model.
Modelled from the spec: packages/evolu/models/text.ts (imported by element.ts for
`isText`, `isTextNotBR`, `textIsBR`) is not in the source tree.  Per the spec, editor
text is a plain string (types/index.ts line 15), and an empty string is semantically a
line break, rendered as BR (spec sections 3 and 4.2: an empty-but-BR-marked Text is the
empty string and is non-mergeable). -/

/-- Modelled from the spec: `textIsBR` of models/text.ts — a text is the BR placeholder
exactly when it is empty. -/
def textIsBR (text : String) : Bool := text.length == 0

/-! ## Tree model: packages/evolu/models/element.ts and types/index.ts -/

mutual
/-- Embeds the `Element` interface (types/index.ts lines 36-39): an id and an ordered
list of child nodes. -/
inductive Element : Type where
  | mk (id : String) (children : List Node) : Element

/-- Embeds `Node` (types/index.ts line 44): `Element | Text`. -/
inductive Node : Type where
  | elem (e : Element) : Node
  | text (s : String) : Node
end

/-- Field accessor for the `id` of an `Element`. -/
def Element.id : Element → String
  | .mk i _ => i

/-- Field accessor for the `children` of an `Element`. -/
def Element.children : Element → List Node
  | .mk _ cs => cs

/-- Modelled from the spec: `isText` of models/text.ts — a node is text when it is a
string (the `Node.text` variant here). -/
def isText : Node → Bool
  | .text _ => true
  | .elem _ => false

/-- Modelled from the spec: `isTextNotBR` of models/text.ts — a text node that is not
the BR placeholder, i.e. a non-empty string. -/
def isTextNotBR : Node → Bool
  | .text s => !textIsBR s
  | .elem _ => false

/-- A node that is the BR placeholder: an empty text.  Property helper used to state
normalization claims. -/
def isTextBR : Node → Bool
  | .text s => textIsBR s
  | .elem _ => false

mutual
/-- Embeds `normalizeElement` (element.ts lines 93-119) together with its
`somethingHasBeenNormalized` flag: the result is paired with a boolean that is true
exactly when the source function would have allocated a fresh object (so a `false`
flag models that the identical input reference is returned).  The `children.reduce`
over the child array is embedded as `normChildren` below. -/
def normalizeElementF (element : Element) : Element × Bool :=
  match element with
  | .mk i cs =>
    let r := normChildren cs [] false
    if r.2 then (Element.mk i r.1, true) else (element, false)

/-- Embeds the `reduce` body of `normalizeElement` (element.ts lines 96-114), with the
accumulator array `acc` and the mutable `somethingHasBeenNormalized` flag threaded
explicitly.  An element child is normalized recursively and appended (its change flag
or-ed in); a BR text child is appended untouched; any other text child is merged into
the last accumulated node when that node is a non-BR text (`last(array)` refined by
`isTextNotBR`, then `unsafeUpdateAt(array.length - 1, previousText + child, array)`),
and appended otherwise. -/
def normChildren (l : List Node) (acc : List Node) (flag : Bool) : List Node × Bool :=
  match l with
  | [] => (acc, flag)
  | c :: rest =>
    match c with
    | .elem e =>
      let r := normalizeElementF e
      normChildren rest (acc ++ [Node.elem r.1]) (flag || r.2)
    | .text s =>
      if textIsBR s then normChildren rest (acc ++ [Node.text s]) flag
      else
        match acc.getLast? with
        | some (Node.text p) =>
          if textIsBR p then normChildren rest (acc ++ [Node.text s]) flag
          else normChildren rest (acc.dropLast ++ [Node.text (p ++ s)]) true
        | _ => normChildren rest (acc ++ [Node.text s]) flag
end

/-- The element returned by `normalizeElement` (the source function's return value,
without the change flag). -/
def normalizeElement (element : Element) : Element := (normalizeElementF element).1

/-- Embeds `isNormalizedElement` (element.ts lines 125-129): the source compares
`normalizeElement(element)` against `element` by reference; the reference comparison
succeeds exactly when no fresh object was allocated, i.e. when the change flag is
false. -/
def isNormalizedElement (element : Element) : Bool := !(normalizeElementF element).2

mutual
/-- Property helper: an element whose whole subtree is normalized (no merge possible
anywhere). -/
def elementNormalized : Element → Bool
  | .mk _ cs => childrenNormalized cs

/-- Property helper: a child list is normalized when every node in it is normalized
and no two adjacent nodes are both non-BR texts. -/
def childrenNormalized : List Node → Bool
  | [] => true
  | [c] => nodeNormalized c
  | c1 :: c2 :: rest =>
    nodeNormalized c1 && !(isTextNotBR c1 && isTextNotBR c2) &&
      childrenNormalized (c2 :: rest)

/-- Property helper: a node is normalized when it is a text, or an element whose
subtree is normalized. -/
def nodeNormalized : Node → Bool
  | .text _ => true
  | .elem e => elementNormalized e
end

mutual
/-- Property helper: the characters of all texts of an element, in document order. -/
def textOfElement : Element → List Char
  | .mk _ cs => textOfNodes cs

/-- Property helper: the characters of all texts of a node list, in document order. -/
def textOfNodes : List Node → List Char
  | [] => []
  | c :: rest => textOfNode c ++ textOfNodes rest

/-- Property helper: the characters of all texts of a node, in document order. -/
def textOfNode : Node → List Char
  | .text s => s.data
  | .elem e => textOfElement e
end

/-- Property helper: project an element child out of a node. -/
def childElem : Node → Option Element
  | .elem e => some e
  | .text _ => none

/-! ## Traversal optics: element.ts lines 147-186.

The source builds monocle-ts optics: `getElementTraversal(path)` composes, per path
index, `childrenLens` (the `children` property lens), `getChildAt(index)` (the
`indexArray` optional, reading with `lookup` and writing with `updateAt`, which
returns the array unchanged when the index is out of range or the element is
reference-equal) and `elementPrism` (`Prism.fromPredicate(Element.is)`);
`getTextTraversal(path)` continues from the parent path (`initNonEmptyPath`, the spec
section 4.1 drop-last) with `getChildAt(last(path))` and `textPrism`
(`Prism.fromPredicate(isText)`).  The functions below embed the observable behaviour
of those composed optics: `getOption` is the step-by-step descent, and `set` rebuilds
the spine copy-on-write.  monocle-ts `modifyOption`/`prismModifyOption` short-circuit
with the original object when the inner write returns a reference-equal value, so the
embedded `set` carries a change flag exactly like `normalizeElementF`: a `false` flag
models that the identical input reference is returned (in particular on any miss, and
when the written text is equal to the text already present, since JavaScript string
equality is value equality). -/

/-- Embeds the read side (`getOption`) of `getElementTraversal` (element.ts lines
156-166): descend one child index per path segment, requiring an element at every
step. -/
def getElementTraversal (path : List Nat) (element : Element) : Option Element :=
  match path with
  | [] => some element
  | i :: rest =>
    match element.children[i]? with
    | some (Node.elem e) => getElementTraversal rest e
    | _ => none

/-- Embeds the read side (`getOption`) of `getTextTraversal` (element.ts lines
171-177): descend to the parent element along all but the last index, then read the
child at the last index, requiring a text. -/
def getTextTraversal (path : List Nat) (element : Element) : Option String :=
  match getElementTraversal path.dropLast element with
  | some parent =>
    match parent.children[path.getD (path.length - 1) 0]? with
    | some (Node.text s) => some s
    | _ => none
  | none => none

/-- The same descent as `getTextTraversal`, organised head-first over the path; used
to relate the read and write sides. -/
def getTextInChildren (i : Nat) (rest : List Nat) (children : List Node) :
    Option String :=
  match children[i]?, rest with
  | some (Node.text s), [] => some s
  | some (Node.elem e), j :: rest' => getTextInChildren j rest' e.children
  | _, _ => none

/-- The write side of `setTextElement`, one level: write `text` at path `i :: rest`
inside a child list, returning the new list and a change flag (`false` models that
the identical input reference is returned: on an out-of-range index, on a node-kind
mismatch, and when the addressed text already equals `text`). -/
def setTextInChildren (text : String) (i : Nat) (rest : List Nat)
    (children : List Node) : List Node × Bool :=
  match children[i]? with
  | none => (children, false)
  | some child =>
    match rest with
    | [] =>
      match child with
      | Node.text s =>
        if s == text then (children, false)
        else (children.set i (Node.text text), true)
      | Node.elem _ => (children, false)
    | j :: rest' =>
      match child with
      | Node.elem e =>
        let r := setTextInChildren text j rest' e.children
        if r.2 then (children.set i (Node.elem (Element.mk e.id r.1)), true)
        else (children, false)
      | Node.text _ => (children, false)

/-- Embeds `setTextElement` (element.ts lines 179-186): `getTextTraversal(path).set(text)`,
with the change flag modelling reference identity as described above.  The source
path has type `NonEmptyPath`; the empty-path case is unreachable there. -/
def setTextElement (text : String) (path : List Nat) (element : Element) :
    Element × Bool :=
  match path with
  | [] => (element, false)
  | i :: rest =>
    let r := setTextInChildren text i rest element.children
    if r.2 then (Element.mk element.id r.1, true) else (element, false)

/-! ## Identifier generation: element.ts lines 47-51 and types/index.ts lines 21-31 -/

/-- The nanoid library generates an identifier of exactly `size` random characters;
its character choice is abstracted as `gen`. -/
def nanoid (size : Nat) (gen : Nat → Char) : String :=
  String.mk ((List.range size).map gen)

/-- Embeds `id` (element.ts line 51): `nanoid(8) as ElementID` — the cast bypasses the
runtime validator. -/
def id (gen : Nat → Char) : String := nanoid 8 gen

/-- Embeds the validation predicate of `tElementID` (types/index.ts lines 21-25):
`n.length >= 10`. -/
def tElementID_is (s : String) : Bool := decide (s.length ≥ 10)

/-! ## Theorems: path algebra and selection claims -/

/-- Claim C1, counterexample: with anchor `[1,2]` and focus `[2,0]` (both non-empty),
lexicographic comparison puts the anchor before the focus (`1 < 2` at index 0), yet
`editorPathsAreForward` classifies the pair as not forward, because index 1 of the
anchor exceeds index 1 of the focus.  So forwardness is not equivalent to
lexicographic-by-index order. -/
theorem claimC1_counterexample :
    ¬(editorPathsAreForward [1, 2] [2, 0] = true ↔ lexLePath [1, 2] [2, 0] = true) := by
  decide

/-- Claim C1, amended: `isForwardSelection` computes `editorPathsAreForward` on
anchor/focus, and a selection is forward iff the anchor is pointwise dominated by the
focus on their common prefix — for every position present in both paths the anchor
index does not exceed the focus index; positions beyond the shorter path are
unconstrained.  This is not the lexicographic order. -/
theorem claimC1_amended (a f : List Nat) :
    isForwardSelection { anchor := a, focus := f } = editorPathsAreForward a f ∧
    editorPathsAreForward a f = (a.zip f).all fun p => decide (p.1 ≤ p.2) := by
  refine ⟨rfl, ?_⟩
  induction a generalizing f with
  | nil => cases f <;> rfl
  | cons x as ih =>
    cases f with
    | nil => rfl
    | cons y fs =>
      simp only [editorPathsAreForward, List.zip_cons_cons, List.all_cons, ih]
      congr 1
      rcases Nat.lt_or_ge y x with h | h
      · simp [h, Nat.not_le.mpr h]
      · simp [Nat.not_lt.mpr h, h]

/-- Claim C2, counterexample: the selection with anchor `[1,0]` and focus `[0,1]` is
not forward, so `mapSelectionToRange` swaps the endpoints, yielding start `[0,1]` and
end `[1,0]` — but the resulting start is not "not-after" the end either: the
comparison is not total, and `isForward(start, end)` fails on the produced range. -/
theorem claimC2_counterexample :
    mapSelectionToRange { anchor := [1, 0], focus := [0, 1] } =
      { start := [0, 1], stop := [1, 0] } ∧
    isForwardSelection { anchor := [0, 1], focus := [1, 0] } = false := by
  decide

/-- Claim C2, amended: `mapSelectionToRange` returns anchor/focus as start/end on a
forward selection and swaps them otherwise (so on a non-forward selection start is
the focus and end is the anchor); the produced start is "not-after" the end except
when anchor and focus are incomparable under the pointwise order, in which case
neither direction is forward. -/
theorem claimC2_amended (S : Selection) :
    (isForwardSelection S = true →
      mapSelectionToRange S = { start := S.anchor, stop := S.focus }) ∧
    (isForwardSelection S = false →
      mapSelectionToRange S = { start := S.focus, stop := S.anchor }) ∧
    (isForwardSelection { anchor := (mapSelectionToRange S).start,
                          focus := (mapSelectionToRange S).stop } = true ∨
      (editorPathsAreForward S.anchor S.focus = false ∧
       editorPathsAreForward S.focus S.anchor = false)) := by
  cases h : editorPathsAreForward S.anchor S.focus with
  | true =>
    have hf : isForwardSelection S = true := h
    refine ⟨fun _ => by simp [mapSelectionToRange, hf],
      fun hc => by rw [hf] at hc; exact absurd hc (by decide), Or.inl ?_⟩
    simp [mapSelectionToRange, hf, isForwardSelection, h]
  | false =>
    have hf : isForwardSelection S = false := h
    refine ⟨fun hc => by rw [hf] at hc; exact absurd hc (by decide),
      fun _ => by simp [mapSelectionToRange, hf], ?_⟩
    cases h2 : editorPathsAreForward S.focus S.anchor with
    | true => exact Or.inl (by simp [mapSelectionToRange, hf, isForwardSelection, h, h2])
    | false => exact Or.inr ⟨rfl, rfl⟩

/-- Witness for claim C2's amended theorem at the forward selection anchor `[0,0]`,
focus `[0,2]`. -/
theorem claimC2_witness :
    mapSelectionToRange { anchor := [0, 0], focus := [0, 2] } =
      { start := [0, 0], stop := [0, 2] } :=
  (claimC2_amended { anchor := [0, 0], focus := [0, 2] }).1 (by decide)

/-- Helper: index-wise path equality is reflexive. -/
theorem editorPathsAreEqual_self (P : List Nat) : editorPathsAreEqual P P = true := by
  simp [editorPathsAreEqual]

/-- Helper: reading a JavaScript array at `length - 1` gives the last element of a
non-empty array. -/
theorem getD_length_sub_one (l : List Nat) (a : Nat) :
    (l ++ [a]).getD ((l ++ [a]).length - 1) 0 = a := by
  simp [List.getD, List.getElem?_append_right]

/-- Claim C7: appending `lastIndex(P)` to `parentPath(P)` rebuilds a path equal to
`P` under `editorPathsAreEqual`, for every non-empty path `P`. -/
theorem claimC7_parent_last_roundtrip (P : List Nat) (h : P ≠ []) :
    ∃ pp li, parentPath P = .ok pp ∧ lastIndex P = .ok li ∧
      editorPathsAreEqual (pp ++ [li]) P = true := by
  obtain ⟨l, a, rfl⟩ : ∃ l a, P = l ++ [a] := by
    rcases List.eq_nil_or_concat P with h' | ⟨l, a, h'⟩
    · exact absurd h' h
    · exact ⟨l, a, by simpa using h'⟩
  have hlen : 0 < (l ++ [a]).length := by simp
  refine ⟨l, a, ?_, ?_, ?_⟩
  · simp [parentPath, invariantPathIsNotEmpty, hlen, List.dropLast_concat]
  · simp [lastIndex, invariantPathIsNotEmpty, hlen, getD_length_sub_one]
  · exact editorPathsAreEqual_self _

/-- Witness for claim C7's theorem at the path `[0,1,2]`. -/
theorem claimC7_witness :
    ∃ pp li, parentPath [0, 1, 2] = .ok pp ∧ lastIndex [0, 1, 2] = .ok li ∧
      editorPathsAreEqual (pp ++ [li]) [0, 1, 2] = true :=
  claimC7_parent_last_roundtrip [0, 1, 2] (by decide)

/-- Claim C8: `parentPath`, `lastIndex` and `parentPathAndLastIndex` fail (with the
source's invariant message) exactly on the empty path, and on every non-empty path
succeed returning all indices but the last, respectively the final index. -/
theorem claimC8_fail_iff_empty (P : List Nat) :
    (P = [] →
      parentPath P = .error "Path can not be empty." ∧
      lastIndex P = .error "Path can not be empty." ∧
      parentPathAndLastIndex P = .error "Path can not be empty.") ∧
    (∀ h : P ≠ [],
      parentPath P = .ok P.dropLast ∧
      lastIndex P = .ok (P.getLast h) ∧
      parentPathAndLastIndex P = .ok (P.dropLast, P.getLast h)) := by
  constructor
  · rintro rfl
    refine ⟨rfl, rfl, rfl⟩
  · intro h
    obtain ⟨l, a, hP⟩ : ∃ l a, P = l ++ [a] := by
      rcases List.eq_nil_or_concat P with h' | ⟨l, a, h'⟩
      · exact absurd h' h
      · exact ⟨l, a, by simpa using h'⟩
    subst hP
    have hlen : 0 < (l ++ [a]).length := by simp
    have hlast : (l ++ [a]).getLast h = a := by
      have h1 : (l ++ [a]).getLast? = some ((l ++ [a]).getLast h) :=
        List.getLast?_eq_getLast _ h
      have h2 : (l ++ [a]).getLast? = some a := List.getLast?_concat l
      exact Option.some.inj (h1.symm.trans h2)
    have hp : parentPath (l ++ [a]) = .ok l := by
      simp [parentPath, invariantPathIsNotEmpty, hlen, List.dropLast_concat]
    have hl : lastIndex (l ++ [a]) = .ok a := by
      simp [lastIndex, invariantPathIsNotEmpty, hlen, getD_length_sub_one]
    refine ⟨by simp [hp, List.dropLast_concat], by simp [hl, hlast], ?_⟩
    unfold parentPathAndLastIndex
    rw [hp, hl, hlast, List.dropLast_concat]
    rfl

/-- Witness for claim C8's theorem at the empty path and at `[5,7]`. -/
theorem claimC8_witness :
    parentPath ([] : List Nat) = .error "Path can not be empty." ∧
    parentPath [5, 7] = .ok [5] ∧ lastIndex [5, 7] = .ok 7 ∧
    parentPathAndLastIndex [5, 7] = .ok ([5], 7) := by
  have h1 := (claimC8_fail_iff_empty ([] : List Nat)).1 rfl
  have h2 := (claimC8_fail_iff_empty [5, 7]).2 (by decide)
  exact ⟨h1.1, by simpa using h2.1, by simpa using h2.2.1, by simpa using h2.2.2⟩

/-- Claim C9: `mapDOMSelectionToSelection` yields a present selection exactly when
both the anchor node and the focus node are non-null and resolved by the lookup; in
that case the selection is the two resolved paths with the respective offsets
appended, and otherwise the result is `none`. -/
theorem claimC9_mapDOMSelectionToSelection (lookup : DOMNode → Option (List Nat))
    (s : DOMSelection) :
    ((mapDOMSelectionToSelection lookup s).isSome ↔
      (∃ an pa, s.anchorNode = some an ∧ lookup an = some pa) ∧
      (∃ fn pf, s.focusNode = some fn ∧ lookup fn = some pf)) ∧
    (∀ an pa fn pf, s.anchorNode = some an → lookup an = some pa →
      s.focusNode = some fn → lookup fn = some pf →
      mapDOMSelectionToSelection lookup s =
        some { anchor := pa ++ [s.anchorOffset], focus := pf ++ [s.focusOffset] }) ∧
    ((mapDOMSelectionToSelection lookup s).isSome = false →
      mapDOMSelectionToSelection lookup s = none) := by
  obtain ⟨an?, ao, fn?, fo⟩ := s
  refine ⟨?_, ?_, ?_⟩
  · cases an? with
    | none => simp [mapDOMSelectionToSelection]
    | some an =>
      cases fn? with
      | none =>
        cases h : lookup an <;> simp [mapDOMSelectionToSelection, h]
      | some fn =>
        cases ha : lookup an <;> cases hf : lookup fn <;>
          simp [mapDOMSelectionToSelection, ha, hf]
  · rintro an pa fn pf rfl ha rfl hf
    simp [mapDOMSelectionToSelection, ha, hf]
  · exact fun h => Option.not_isSome_iff_eq_none.mp (by simp [h])

/-- Witness for claim C9's theorem: a lookup that resolves node 0 to `[0]`, with both
endpoints on node 0 and offsets 1 and 2. -/
theorem claimC9_witness :
    mapDOMSelectionToSelection (fun n => if n = 0 then some [0] else none)
      { anchorNode := some 0, anchorOffset := 1, focusNode := some 0, focusOffset := 2 } =
      some { anchor := [0, 1], focus := [0, 2] } :=
  (claimC9_mapDOMSelectionToSelection (fun n => if n = 0 then some [0] else none)
      { anchorNode := some 0, anchorOffset := 1,
        focusNode := some 0, focusOffset := 2 }).2.1
    0 [0] 0 [0] rfl (by decide) rfl (by decide)

/-- Claim C10: every identifier the generator produces has length 8 (`nanoid(8)`),
and therefore fails the `tElementID` runtime validator, which requires length at
least 10. -/
theorem claimC10_id_fails_validator (gen : Nat → Char) :
    (Evolu.id gen).length = 8 ∧ tElementID_is (Evolu.id gen) = false := by
  have h : (Evolu.id gen).length = 8 := by
    simp [Evolu.id, nanoid, String.length]
  exact ⟨h, by simp [tElementID_is, h]⟩

/-! ## Theorems: text traversal claims -/

/-- Helper: reading through a missing child index misses. -/
theorem getTextInChildren_isNone {i : Nat} {children : List Node} (rest : List Nat)
    (hc : children[i]? = none) : getTextInChildren i rest children = none := by
  rw [getTextInChildren.eq_def, hc]

/-- Helper: reading a text child at the final path segment. -/
theorem getTextInChildren_text_nil {i : Nat} {children : List Node} {s : String}
    (hc : children[i]? = some (Node.text s)) :
    getTextInChildren i [] children = some s := by
  rw [getTextInChildren.eq_def, hc]

/-- Helper: reading through a text child with path remaining misses. -/
theorem getTextInChildren_text_cons {i : Nat} {children : List Node} {s : String}
    (j : Nat) (rest' : List Nat) (hc : children[i]? = some (Node.text s)) :
    getTextInChildren i (j :: rest') children = none := by
  rw [getTextInChildren.eq_def, hc]

/-- Helper: reading an element child at the final path segment misses. -/
theorem getTextInChildren_elem_nil {i : Nat} {children : List Node} {e : Element}
    (hc : children[i]? = some (Node.elem e)) :
    getTextInChildren i [] children = none := by
  rw [getTextInChildren.eq_def, hc]

/-- Helper: reading descends through an element child. -/
theorem getTextInChildren_elem_cons {i : Nat} {children : List Node} {e : Element}
    (j : Nat) (rest' : List Nat) (hc : children[i]? = some (Node.elem e)) :
    getTextInChildren i (j :: rest') children = getTextInChildren j rest' e.children := by
  rw [getTextInChildren.eq_def, hc]

/-- Helper: writing through a missing child index is an identity no-op. -/
theorem setTextInChildren_isNone {t : String} {i : Nat} {children : List Node}
    (rest : List Nat) (hc : children[i]? = none) :
    setTextInChildren t i rest children = (children, false) := by
  rw [setTextInChildren.eq_def, hc]

/-- Helper: writing at a text child at the final path segment compares the strings
first. -/
theorem setTextInChildren_text_nil {t : String} {i : Nat} {children : List Node}
    {s : String} (hc : children[i]? = some (Node.text s)) :
    setTextInChildren t i [] children =
      if s == t then (children, false)
      else (children.set i (Node.text t), true) := by
  rw [setTextInChildren.eq_def, hc]

/-- Helper: writing through a text child with path remaining is an identity no-op. -/
theorem setTextInChildren_text_cons {t : String} {i : Nat} {children : List Node}
    {s : String} (j : Nat) (rest' : List Nat)
    (hc : children[i]? = some (Node.text s)) :
    setTextInChildren t i (j :: rest') children = (children, false) := by
  rw [setTextInChildren.eq_def, hc]

/-- Helper: writing at an element child at the final path segment is an identity
no-op. -/
theorem setTextInChildren_elem_nil {t : String} {i : Nat} {children : List Node}
    {e : Element} (hc : children[i]? = some (Node.elem e)) :
    setTextInChildren t i [] children = (children, false) := by
  rw [setTextInChildren.eq_def, hc]

/-- Helper: writing descends through an element child and rebuilds the spine only
when the inner write changed something. -/
theorem setTextInChildren_elem_cons {t : String} {i : Nat} {children : List Node}
    {e : Element} (j : Nat) (rest' : List Nat)
    (hc : children[i]? = some (Node.elem e)) :
    setTextInChildren t i (j :: rest') children =
      if (setTextInChildren t j rest' e.children).2 then
        (children.set i
          (Node.elem (Element.mk e.id (setTextInChildren t j rest' e.children).1)), true)
      else (children, false) := by
  rw [setTextInChildren.eq_def, hc]

/-- Helper: the read side of the text traversal, reorganised head-first over the
path. -/
theorem getTextTraversal_cons (i : Nat) (rest : List Nat) (E : Element) :
    getTextTraversal (i :: rest) E = getTextInChildren i rest E.children := by
  induction rest generalizing i E with
  | nil =>
    cases hc : E.children[i]? with
    | none => simp [getTextTraversal, getElementTraversal, hc, getTextInChildren_isNone]
    | some c =>
      cases c with
      | text s =>
        simp [getTextTraversal, getElementTraversal, hc, getTextInChildren_text_nil]
      | elem e =>
        simp [getTextTraversal, getElementTraversal, hc, getTextInChildren_elem_nil]
  | cons j rest' ih =>
    cases hc : E.children[i]? with
    | none => simp [getTextTraversal, getElementTraversal, hc, getTextInChildren_isNone]
    | some c =>
      cases c with
      | text s =>
        simp [getTextTraversal, getElementTraversal, hc,
          getTextInChildren_text_cons j rest' hc]
      | elem e =>
        have he := ih j e
        rw [getTextInChildren_elem_cons j rest' hc]
        simp [getTextTraversal, getElementTraversal, hc] at he ⊢
        exact he

/-- Helper: when the path resolves to a text equal to the written text, the write is
the identity at every level, and no fresh object is allocated. -/
theorem setTextInChildren_getText_some (t : String) :
    ∀ (rest : List Nat) (i : Nat) (children : List Node),
      getTextInChildren i rest children = some t →
      setTextInChildren t i rest children = (children, false) := by
  intro rest
  induction rest with
  | nil =>
    intro i children h
    cases hc : children[i]? with
    | none => rw [getTextInChildren_isNone [] hc] at h; exact absurd h (by simp)
    | some c =>
      cases c with
      | text s =>
        rw [getTextInChildren_text_nil hc] at h
        rw [setTextInChildren_text_nil hc]
        simp only [Option.some.injEq] at h
        simp [h]
      | elem e => rw [getTextInChildren_elem_nil hc] at h; exact absurd h (by simp)
  | cons j rest' ih =>
    intro i children h
    cases hc : children[i]? with
    | none =>
      rw [getTextInChildren_isNone (j :: rest') hc] at h; exact absurd h (by simp)
    | some c =>
      cases c with
      | text s =>
        rw [getTextInChildren_text_cons j rest' hc] at h; exact absurd h (by simp)
      | elem e =>
        rw [getTextInChildren_elem_cons j rest' hc] at h
        have hr := ih j e.children h
        rw [setTextInChildren_elem_cons j rest' hc, hr]
        simp

/-- Helper: when the path does not resolve to a text node, the write changes nothing
at any level, and no fresh object is allocated. -/
theorem setTextInChildren_getText_none (t : String) :
    ∀ (rest : List Nat) (i : Nat) (children : List Node),
      getTextInChildren i rest children = none →
      setTextInChildren t i rest children = (children, false) := by
  intro rest
  induction rest with
  | nil =>
    intro i children h
    cases hc : children[i]? with
    | none => exact setTextInChildren_isNone [] hc
    | some c =>
      cases c with
      | text s => rw [getTextInChildren_text_nil hc] at h; exact absurd h (by simp)
      | elem e => exact setTextInChildren_elem_nil hc
  | cons j rest' ih =>
    intro i children h
    cases hc : children[i]? with
    | none => exact setTextInChildren_isNone (j :: rest') hc
    | some c =>
      cases c with
      | text s => exact setTextInChildren_text_cons j rest' hc
      | elem e =>
        rw [getTextInChildren_elem_cons j rest' hc] at h
        have hr := ih j e.children h
        rw [setTextInChildren_elem_cons j rest' hc, hr]
        simp

/-- Claim C5: when a non-empty path resolves in `E` to a text node whose string
already equals the written text, `setTextElement` returns the identical element
reference (embedded as the pair of the unchanged element and a false change flag). -/
theorem claimC5_setText_identity (t : String) (p : List Nat) (E : Element)
    (hp : p ≠ []) (h : getTextTraversal p E = some t) :
    setTextElement t p E = (E, false) := by
  cases p with
  | nil => exact absurd rfl hp
  | cons i rest =>
    rw [getTextTraversal_cons] at h
    have hs := setTextInChildren_getText_some t rest i E.children h
    simp [setTextElement, hs]

/-- Witness for claim C5's theorem: writing "foo" over the text "foo". -/
theorem claimC5_witness :
    setTextElement "foo" [0] (Element.mk "r" [Node.text "foo"]) =
      (Element.mk "r" [Node.text "foo"], false) :=
  claimC5_setText_identity "foo" [0] (Element.mk "r" [Node.text "foo"])
    (by simp) rfl

/-- Claim C6: when a non-empty path does not resolve to a text node in `E`
(out-of-range index, a text where an element was required along the way, or an
element at the final segment), `setTextElement` is a silent no-op returning the
unchanged element (false change flag), and, being total, never raises. -/
theorem claimC6_setText_noop_on_miss (t : String) (p : List Nat) (E : Element)
    (hp : p ≠ []) (h : getTextTraversal p E = none) :
    setTextElement t p E = (E, false) := by
  cases p with
  | nil => exact absurd rfl hp
  | cons i rest =>
    rw [getTextTraversal_cons] at h
    have hs := setTextInChildren_getText_none t rest i E.children h
    simp [setTextElement, hs]

/-- Witness for claim C6's theorem: writing at the out-of-range index 1. -/
theorem claimC6_witness :
    setTextElement "bar" [1] (Element.mk "r" [Node.text "foo"]) =
      (Element.mk "r" [Node.text "foo"], false) :=
  claimC6_setText_noop_on_miss "bar" [1] (Element.mk "r" [Node.text "foo"])
    (by simp) rfl

/-! ## Theorems: normalization claims -/

/-- Property helper: whether the last node of a list is a non-BR text (the condition
under which the normalization fold merges the next text). -/
def lastIsTextNotBR (l : List Node) : Bool :=
  match l.getLast? with
  | some n => isTextNotBR n
  | none => false

/-- Property helper: whether the first node of a list is a non-BR text. -/
def headIsTextNotBR (l : List Node) : Bool :=
  match l with
  | c :: _ => isTextNotBR c
  | [] => false

/-- Unfolding: the normalization of an element in terms of its child fold. -/
theorem normalizeElementF_mk (i : String) (cs : List Node) :
    normalizeElementF (Element.mk i cs) =
      if (normChildren cs [] false).2
      then (Element.mk i (normChildren cs [] false).1, true)
      else (Element.mk i cs, false) := rfl

/-- Helper: when the change flag is false, the source returned its input object. -/
theorem normalizeElementF_snd_false {E : Element}
    (h : (normalizeElementF E).2 = false) : (normalizeElementF E).1 = E := by
  cases E with
  | mk i cs =>
    cases hb : (normChildren cs [] false).2 with
    | true => rw [normalizeElementF_mk, hb] at h; simp at h
    | false => rw [normalizeElementF_mk, hb]; simp

/-- Unfolding: the fold on the empty list. -/
theorem normChildren_nil (acc : List Node) (flag : Bool) :
    normChildren [] acc flag = (acc, flag) := rfl

/-- Unfolding: the fold step on an element child. -/
theorem normChildren_cons_elem (e : Element) (rest acc : List Node) (flag : Bool) :
    normChildren (Node.elem e :: rest) acc flag =
      normChildren rest (acc ++ [Node.elem (normalizeElementF e).1])
        (flag || (normalizeElementF e).2) := rfl

/-- Unfolding: the fold step on a text child, before case analysis. -/
theorem normChildren_cons_text (s : String) (rest acc : List Node) (flag : Bool) :
    normChildren (Node.text s :: rest) acc flag =
      if textIsBR s then normChildren rest (acc ++ [Node.text s]) flag
      else
        match acc.getLast? with
        | some (Node.text p) =>
          if textIsBR p then normChildren rest (acc ++ [Node.text s]) flag
          else normChildren rest (acc.dropLast ++ [Node.text (p ++ s)]) true
        | _ => normChildren rest (acc ++ [Node.text s]) flag := rfl

/-- Unfolding: the fold step on a BR text child appends it untouched. -/
theorem normChildren_cons_text_BR {s : String} (hs : textIsBR s = true)
    (rest acc : List Node) (flag : Bool) :
    normChildren (Node.text s :: rest) acc flag =
      normChildren rest (acc ++ [Node.text s]) flag := by
  rw [normChildren_cons_text]
  simp [hs]

/-- Unfolding: the fold step on a non-BR text child appends it when the last
accumulated node is not a non-BR text. -/
theorem normChildren_cons_text_append {s : String} (hs : textIsBR s = false)
    {acc : List Node} (hl : lastIsTextNotBR acc = false) (rest : List Node)
    (flag : Bool) :
    normChildren (Node.text s :: rest) acc flag =
      normChildren rest (acc ++ [Node.text s]) flag := by
  rw [normChildren_cons_text]
  simp only [hs, Bool.false_eq_true, if_false]
  cases hg : acc.getLast? with
  | none => rfl
  | some n =>
    cases n with
    | elem e' => rfl
    | text p =>
      have hp : textIsBR p = true := by
        have h2 := hl
        simp only [lastIsTextNotBR, hg, isTextNotBR] at h2
        simpa using h2
      simp [hp]

/-- Unfolding: the fold step on a non-BR text child merges it into a trailing non-BR
text of the accumulator, setting the change flag. -/
theorem normChildren_cons_text_merge {s p : String} (hs : textIsBR s = false)
    {acc : List Node} (hg : acc.getLast? = some (Node.text p))
    (hp : textIsBR p = false) (rest : List Node) (flag : Bool) :
    normChildren (Node.text s :: rest) acc flag =
      normChildren rest (acc.dropLast ++ [Node.text (p ++ s)]) true := by
  rw [normChildren_cons_text]
  simp only [hs, Bool.false_eq_true, if_false, hg]
  simp [hp]

/-- Helper: once set, the change flag of the fold stays set. -/
theorem normChildren_flag_true (l : List Node) :
    ∀ acc, (normChildren l acc true).2 = true := by
  induction l with
  | nil => intro acc; rfl
  | cons c rest ih =>
    intro acc
    cases c with
    | elem e => rw [normChildren_cons_elem]; simpa using ih _
    | text s =>
      cases hs : textIsBR s with
      | true => rw [normChildren_cons_text_BR hs]; exact ih _
      | false =>
        cases hg : acc.getLast? with
        | none =>
          rw [normChildren_cons_text_append hs (by simp [lastIsTextNotBR, hg])]
          exact ih _
        | some n =>
          cases n with
          | elem e' =>
            rw [normChildren_cons_text_append hs
              (by simp [lastIsTextNotBR, hg, isTextNotBR])]
            exact ih _
          | text p =>
            cases hp : textIsBR p with
            | true =>
              rw [normChildren_cons_text_append hs
                (by simp [lastIsTextNotBR, hg, isTextNotBR, hp])]
              exact ih _
            | false =>
              rw [normChildren_cons_text_merge hs hg hp]
              exact ih _

/-- Unfolding: empty child lists are normalized. -/
theorem childrenNormalized_nil : childrenNormalized [] = true := rfl

/-- Unfolding: a singleton child list is normalized when its node is. -/
theorem childrenNormalized_singleton (c : Node) :
    childrenNormalized [c] = nodeNormalized c := rfl

/-- Unfolding: the two-or-more-children case of `childrenNormalized`. -/
theorem childrenNormalized_cons_cons (c1 c2 : Node) (rest : List Node) :
    childrenNormalized (c1 :: c2 :: rest) =
      (nodeNormalized c1 && !(isTextNotBR c1 && isTextNotBR c2) &&
        childrenNormalized (c2 :: rest)) := rfl

/-- Unfolding: texts are always normalized nodes. -/
theorem nodeNormalized_text (s : String) : nodeNormalized (Node.text s) = true := rfl

/-- Unfolding: an element node is normalized when the element is. -/
theorem nodeNormalized_elem (e : Element) :
    nodeNormalized (Node.elem e) = elementNormalized e := rfl

/-- Unfolding: an element is normalized when its child list is. -/
theorem elementNormalized_children (E : Element) :
    elementNormalized E = childrenNormalized E.children := by
  cases E
  rfl

/-- Helper: the last node of a list ending in `x` is `x`. -/
theorem lastIsTextNotBR_snoc (l : List Node) (x : Node) :
    lastIsTextNotBR (l ++ [x]) = isTextNotBR x := by
  simp [lastIsTextNotBR, List.getLast?_concat]

/-- Helper: Boolean equalities follow from propositional equivalence of being true. -/
theorem bool_eq_of_iff {a b : Bool} (h : a = true ↔ b = true) : a = b := by
  cases a <;> cases b <;> simp_all

/-- Helper: head/adjacency form of `childrenNormalized` on a cons. -/
theorem childrenNormalized_cons (c : Node) (rest : List Node) :
    childrenNormalized (c :: rest) =
      (nodeNormalized c && !(isTextNotBR c && headIsTextNotBR rest) &&
        childrenNormalized rest) := by
  cases rest with
  | nil =>
    apply bool_eq_of_iff
    simp [childrenNormalized_singleton, childrenNormalized_nil, headIsTextNotBR]
  | cons c2 r =>
    rw [childrenNormalized_cons_cons]
    rfl

/-- Helper: a child list extended on the right is normalized when the prefix is, the
new node is, and no new text adjacency is created. -/
theorem childrenNormalized_snoc (l : List Node) (x : Node) :
    childrenNormalized (l ++ [x]) =
      (childrenNormalized l && nodeNormalized x &&
        !(lastIsTextNotBR l && isTextNotBR x)) := by
  induction l with
  | nil =>
    apply bool_eq_of_iff
    simp [childrenNormalized_singleton, childrenNormalized_nil, lastIsTextNotBR]
  | cons c rest ih =>
    rw [List.cons_append, childrenNormalized_cons, ih, childrenNormalized_cons c rest]
    cases rest with
    | nil =>
      apply bool_eq_of_iff
      have h1 : headIsTextNotBR ([] ++ [x]) = isTextNotBR x := rfl
      have h2 : lastIsTextNotBR ([c] : List Node) = isTextNotBR c := by
        simp [lastIsTextNotBR]
      simp [h1, h2, childrenNormalized_nil, headIsTextNotBR, lastIsTextNotBR]
      tauto
    | cons c2 r =>
      apply bool_eq_of_iff
      have h1 : headIsTextNotBR ((c2 :: r) ++ [x]) = isTextNotBR c2 := rfl
      have h2 : lastIsTextNotBR (c :: c2 :: r) = lastIsTextNotBR (c2 :: r) := by
        simp [lastIsTextNotBR, List.getLast?_cons_cons]
      simp [h1, h2, headIsTextNotBR]
      tauto

/-- Helper: a merge of a non-BR text with any text stays non-BR. -/
theorem textIsBR_append_left {p : String} (hp : textIsBR p = false) (s : String) :
    textIsBR (p ++ s) = false := by
  simp [textIsBR, String.length_append] at hp ⊢
  omega

/-- Unfolding: text characters of the empty child list. -/
theorem textOfNodes_nil : textOfNodes [] = [] := rfl

/-- Unfolding: text characters of a cons child list. -/
theorem textOfNodes_cons (c : Node) (rest : List Node) :
    textOfNodes (c :: rest) = textOfNode c ++ textOfNodes rest := rfl

/-- Unfolding: text characters of an element. -/
theorem textOfElement_mk (i : String) (cs : List Node) :
    textOfElement (Element.mk i cs) = textOfNodes cs := rfl

/-- Helper: text characters distribute over child list append. -/
theorem textOfNodes_append (l1 l2 : List Node) :
    textOfNodes (l1 ++ l2) = textOfNodes l1 ++ textOfNodes l2 := by
  induction l1 with
  | nil => simp [textOfNodes_nil]
  | cons c r ih => simp [textOfNodes_cons, ih]

/-- Helper: mapping a function that fixes every member is the identity. -/
theorem map_self_of_mem {α : Type} {f : α → α} :
    ∀ (l : List α), (∀ x ∈ l, f x = x) → l.map f = l := by
  intro l h
  induction l with
  | nil => rfl
  | cons a r ih =>
    rw [List.map_cons, h a (List.mem_cons_self a r),
      ih fun x hx => h x (List.mem_cons_of_mem a hx)]

/-- Unfolding: BR test on an element node. -/
theorem isTextBR_elem (e : Element) : isTextBR (Node.elem e) = false := rfl

/-- Unfolding: BR test on a text node. -/
theorem isTextBR_text (s : String) : isTextBR (Node.text s) = textIsBR s := rfl

/-- Unfolding: element projection of an element node. -/
theorem childElem_elem (e : Element) : childElem (Node.elem e) = some e := rfl

/-- Unfolding: element projection of a text node. -/
theorem childElem_text (s : String) : childElem (Node.text s) = none := rfl

/-- Unfolding: text characters of a text node. -/
theorem textOfNode_text (s : String) : textOfNode (Node.text s) = s.data := rfl

/-- Unfolding: text characters of an element node. -/
theorem textOfNode_elem (e : Element) :
    textOfNode (Node.elem e) = textOfElement e := rfl

/-- Helper: on a non-BR text child, the fold step either appends (when the last
accumulated node is not a non-BR text) or merges into a trailing non-BR text. -/
theorem normChildren_cons_text_cases {s : String} (hs : textIsBR s = false)
    (acc rest : List Node) (flag : Bool) :
    (lastIsTextNotBR acc = false ∧
      normChildren (Node.text s :: rest) acc flag =
        normChildren rest (acc ++ [Node.text s]) flag) ∨
    (∃ init p, acc = init ++ [Node.text p] ∧ textIsBR p = false ∧
      normChildren (Node.text s :: rest) acc flag =
        normChildren rest (init ++ [Node.text (p ++ s)]) true) := by
  cases hg : acc.getLast? with
  | none =>
    have hl : lastIsTextNotBR acc = false := by simp [lastIsTextNotBR, hg]
    exact Or.inl ⟨hl, normChildren_cons_text_append hs hl rest flag⟩
  | some n =>
    cases n with
    | elem e' =>
      have hl : lastIsTextNotBR acc = false := by
        simp [lastIsTextNotBR, hg, isTextNotBR]
      exact Or.inl ⟨hl, normChildren_cons_text_append hs hl rest flag⟩
    | text p =>
      cases hp : textIsBR p with
      | true =>
        have hl : lastIsTextNotBR acc = false := by
          simp [lastIsTextNotBR, hg, isTextNotBR, hp]
        exact Or.inl ⟨hl, normChildren_cons_text_append hs hl rest flag⟩
      | false =>
        obtain ⟨init, hi⟩ := List.getLast?_eq_some_iff.mp hg
        refine Or.inr ⟨init, p, hi, hp, ?_⟩
        rw [normChildren_cons_text_merge hs hg hp, hi, List.dropLast_concat]

/-- Fold lemma: starting from a normalized accumulator, the fold's result list is
normalized, provided each element child normalizes to a normalized element. -/
theorem normChildren_result_normalized (l : List Node)
    (He : ∀ e, Node.elem e ∈ l → elementNormalized (normalizeElementF e).1 = true) :
    ∀ acc flag, childrenNormalized acc = true →
      childrenNormalized (normChildren l acc flag).1 = true := by
  induction l with
  | nil => intro acc flag h; rw [normChildren_nil]; exact h
  | cons c rest ih =>
    have He' : ∀ e, Node.elem e ∈ rest →
        elementNormalized (normalizeElementF e).1 = true :=
      fun e he => He e (List.mem_cons_of_mem _ he)
    intro acc flag h
    cases c with
    | elem e =>
      rw [normChildren_cons_elem]
      refine ih He' _ _ ?_
      rw [childrenNormalized_snoc]
      have h1 : nodeNormalized (Node.elem (normalizeElementF e).1) = true := by
        rw [nodeNormalized_elem]
        exact He e (List.mem_cons_self _ _)
      simp [h, h1, isTextNotBR]
    | text s =>
      cases hs : textIsBR s with
      | true =>
        rw [normChildren_cons_text_BR hs]
        refine ih He' _ _ ?_
        rw [childrenNormalized_snoc]
        simp [h, nodeNormalized_text, isTextNotBR, hs]
      | false =>
        rcases normChildren_cons_text_cases hs acc rest flag with
          ⟨hl, heq⟩ | ⟨init, p, hi, hp, heq⟩
        · rw [heq]
          refine ih He' _ _ ?_
          rw [childrenNormalized_snoc]
          simp [h, nodeNormalized_text, hl]
        · rw [heq]
          refine ih He' _ _ ?_
          subst hi
          rw [childrenNormalized_snoc] at h
          rw [childrenNormalized_snoc]
          have hpn : isTextNotBR (Node.text p) = true := by simp [isTextNotBR, hp]
          have hmn : isTextNotBR (Node.text (p ++ s)) = true := by
            simp [isTextNotBR, textIsBR_append_left hp]
          simp [nodeNormalized_text, hpn, hmn] at h ⊢
          exact h

/-- Fold lemma: a false change flag after the fold means the flag was false to start
with, the fold only replayed its input after the accumulator, and every element child
was already a normalization fixpoint. -/
theorem normChildren_snd_false (l : List Node) :
    ∀ acc flag, (normChildren l acc flag).2 = false →
      flag = false ∧ (normChildren l acc flag).1 = acc ++ l ∧
      ∀ e, Node.elem e ∈ l → normalizeElementF e = (e, false) := by
  induction l with
  | nil =>
    intro acc flag h
    rw [normChildren_nil] at h ⊢
    exact ⟨h, by simp, fun e he => absurd he (by simp)⟩
  | cons c rest ih =>
    intro acc flag h
    cases c with
    | elem e =>
      rw [normChildren_cons_elem] at h ⊢
      obtain ⟨hf, h1, h2⟩ := ih _ _ h
      have hfe : flag = false ∧ (normalizeElementF e).2 = false := by simpa using hf
      have hfst := normalizeElementF_snd_false hfe.2
      have he3 : normalizeElementF e = (e, false) := by
        rw [Prod.ext_iff]
        exact ⟨hfst, hfe.2⟩
      refine ⟨hfe.1, ?_, ?_⟩
      · rw [h1, hfst]; simp
      · intro e' he'
        rcases List.mem_cons.mp he' with heq | hmem
        · injection heq with h4
          rw [h4]; exact he3
        · exact h2 e' hmem
    | text s =>
      cases hs : textIsBR s with
      | true =>
        rw [normChildren_cons_text_BR hs] at h ⊢
        obtain ⟨hf, h1, h2⟩ := ih _ _ h
        refine ⟨hf, by rw [h1]; simp, ?_⟩
        intro e' he'
        rcases List.mem_cons.mp he' with heq | hmem
        · exact absurd heq (by simp)
        · exact h2 e' hmem
      | false =>
        rcases normChildren_cons_text_cases hs acc rest flag with
          ⟨hl, heq⟩ | ⟨init, p, hi, hp, heq⟩
        · rw [heq] at h ⊢
          obtain ⟨hf, h1, h2⟩ := ih _ _ h
          refine ⟨hf, by rw [h1]; simp, ?_⟩
          intro e' he'
          rcases List.mem_cons.mp he' with heq2 | hmem
          · exact absurd heq2 (by simp)
          · exact h2 e' hmem
        · rw [heq, normChildren_flag_true rest _] at h
          exact absurd h (by simp)

/-- Fold lemma: on an already-normalized child list whose element children are all
normalization fixpoints, and when no text adjacency exists between the accumulator
and the list, the fold replays its input and keeps the flag. -/
theorem normChildren_fixpoint (l : List Node)
    (He : ∀ e, Node.elem e ∈ l → elementNormalized e = true →
      normalizeElementF e = (e, false)) :
    ∀ acc flag, childrenNormalized l = true →
      (lastIsTextNotBR acc && headIsTextNotBR l) = false →
      normChildren l acc flag = (acc ++ l, flag) := by
  induction l with
  | nil => intro acc flag _ _; rw [normChildren_nil]; simp
  | cons c rest ih =>
    have He' : ∀ e, Node.elem e ∈ rest → elementNormalized e = true →
        normalizeElementF e = (e, false) :=
      fun e he => He e (List.mem_cons_of_mem _ he)
    intro acc flag hcn hadj
    rw [childrenNormalized_cons] at hcn
    simp only [Bool.and_eq_true, Bool.not_eq_true'] at hcn
    obtain ⟨⟨hnc, hadj2⟩, hrest⟩ := hcn
    cases c with
    | elem e =>
      have hee : normalizeElementF e = (e, false) :=
        He e (List.mem_cons_self _ _) (by rwa [nodeNormalized_elem] at hnc)
      rw [normChildren_cons_elem, hee]
      rw [ih He' _ _ hrest (by rw [lastIsTextNotBR_snoc]; simp [isTextNotBR])]
      simp
    | text s =>
      cases hs : textIsBR s with
      | true =>
        rw [normChildren_cons_text_BR hs]
        rw [ih He' _ _ hrest
          (by rw [lastIsTextNotBR_snoc]; simp [isTextNotBR, hs])]
        simp
      | false =>
        have hisTNB : isTextNotBR (Node.text s) = true := by simp [isTextNotBR, hs]
        have hlast : lastIsTextNotBR acc = false := by
          cases hb : lastIsTextNotBR acc with
          | false => rfl
          | true => rw [hb] at hadj; simp [headIsTextNotBR, hisTNB] at hadj
        have hhead : headIsTextNotBR rest = false := by
          cases rest with
          | nil => rfl
          | cons c2 r => simpa [headIsTextNotBR, hisTNB] using hadj2
        rw [normChildren_cons_text_append hs hlast]
        rw [ih He' _ _ hrest (by rw [lastIsTextNotBR_snoc, hhead]; simp)]
        simp

/-- Fold lemma: the fold preserves the sequence of BR texts. -/
theorem normChildren_filter_BR (l : List Node) :
    ∀ acc flag, (normChildren l acc flag).1.filter isTextBR =
      acc.filter isTextBR ++ l.filter isTextBR := by
  induction l with
  | nil => intro acc flag; rw [normChildren_nil]; simp
  | cons c rest ih =>
    intro acc flag
    cases c with
    | elem e =>
      rw [normChildren_cons_elem, ih]
      simp [isTextBR_elem]
    | text s =>
      cases hs : textIsBR s with
      | true =>
        rw [normChildren_cons_text_BR hs, ih]
        simp [isTextBR_text, hs]
      | false =>
        rcases normChildren_cons_text_cases hs acc rest flag with
          ⟨hl, heq⟩ | ⟨init, p, hi, hp, heq⟩
        · rw [heq, ih]
          simp [isTextBR_text, hs]
        · rw [heq, ih, hi]
          simp [isTextBR_text, hs, hp, textIsBR_append_left hp]

/-- Fold lemma: the fold sends each element child through `normalizeElementF`,
preserving their order and touching nothing else about them. -/
theorem normChildren_filterMap_elem (l : List Node) :
    ∀ acc flag, (normChildren l acc flag).1.filterMap childElem =
      acc.filterMap childElem ++
        (l.filterMap childElem).map (fun e => (normalizeElementF e).1) := by
  induction l with
  | nil => intro acc flag; rw [normChildren_nil]; simp
  | cons c rest ih =>
    intro acc flag
    cases c with
    | elem e =>
      rw [normChildren_cons_elem, ih]
      simp [childElem_elem, childElem_text]
    | text s =>
      cases hs : textIsBR s with
      | true =>
        rw [normChildren_cons_text_BR hs, ih]
        simp [childElem_text]
      | false =>
        rcases normChildren_cons_text_cases hs acc rest flag with
          ⟨hl, heq⟩ | ⟨init, p, hi, hp, heq⟩
        · rw [heq, ih]
          simp [childElem_text]
        · rw [heq, ih, hi]
          simp [childElem_text]

/-- Fold lemma: the fold preserves the concatenated text characters, provided each
element child's normalization preserves its text characters. -/
theorem normChildren_textOf (l : List Node)
    (He : ∀ e, Node.elem e ∈ l →
      textOfElement (normalizeElementF e).1 = textOfElement e) :
    ∀ acc flag, textOfNodes (normChildren l acc flag).1 =
      textOfNodes acc ++ textOfNodes l := by
  induction l with
  | nil => intro acc flag; rw [normChildren_nil]; simp [textOfNodes_nil]
  | cons c rest ih =>
    have He' : ∀ e, Node.elem e ∈ rest →
        textOfElement (normalizeElementF e).1 = textOfElement e :=
      fun e he => He e (List.mem_cons_of_mem _ he)
    intro acc flag
    cases c with
    | elem e =>
      rw [normChildren_cons_elem, ih He']
      simp [textOfNodes_append, textOfNodes_cons, textOfNodes_nil, textOfNode_elem,
        He e (List.mem_cons_self _ _)]
    | text s =>
      cases hs : textIsBR s with
      | true =>
        rw [normChildren_cons_text_BR hs, ih He']
        simp [textOfNodes_append, textOfNodes_cons, textOfNodes_nil, textOfNode_text]
      | false =>
        rcases normChildren_cons_text_cases hs acc rest flag with
          ⟨hl, heq⟩ | ⟨init, p, hi, hp, heq⟩
        · rw [heq, ih He']
          simp [textOfNodes_append, textOfNodes_cons, textOfNodes_nil,
            textOfNode_text]
        · rw [heq, ih He', hi]
          simp [textOfNodes_append, textOfNodes_cons, textOfNodes_nil,
            textOfNode_text, String.data_append]

/-- Unfolding: the children accessor. -/
theorem Element.children_mk (i : String) (cs : List Node) :
    (Element.mk i cs).children = cs := rfl

/-- Unfolding: normalized-ness of a constructed element. -/
theorem elementNormalized_mk (i : String) (cs : List Node) :
    elementNormalized (Element.mk i cs) = childrenNormalized cs := rfl

/-- Helper: an element child is structurally smaller than its parent element. -/
theorem sizeOf_elem_lt {e : Element} {cs : List Node} (h : Node.elem e ∈ cs)
    (i : String) : sizeOf e < sizeOf (Element.mk i cs) := by
  have h1 : sizeOf (Node.elem e) < sizeOf cs := List.sizeOf_lt_of_mem h
  have h2 : sizeOf (Node.elem e) = 1 + sizeOf e := by simp
  have h3 : sizeOf (Element.mk i cs) = 1 + sizeOf i + sizeOf cs := by simp
  omega

/-- Combined normalization properties, proved by strong induction on element size:
the result subtree is normalized; BR texts of the child list are preserved; element
children are recursed into in order; text characters are preserved; and an element
with no possible merge anywhere is returned unchanged, with a false change flag. -/
theorem norm_props : ∀ (n : Nat) (E : Element), sizeOf E ≤ n →
    childrenNormalized (normalizeElement E).children = true ∧
    (normalizeElement E).children.filter isTextBR = E.children.filter isTextBR ∧
    (normalizeElement E).children.filterMap childElem =
      (E.children.filterMap childElem).map normalizeElement ∧
    textOfElement (normalizeElement E) = textOfElement E ∧
    (elementNormalized E = true → normalizeElementF E = (E, false)) := by
  intro n
  induction n with
  | zero =>
    intro E hE
    exfalso
    cases E with
    | mk i cs =>
      have : sizeOf (Element.mk i cs) = 1 + sizeOf i + sizeOf cs := by simp
      omega
  | succ n ih =>
    intro E hE
    cases E with
    | mk i cs =>
    have hmem : ∀ e, Node.elem e ∈ cs → sizeOf e ≤ n := by
      intro e he
      have := sizeOf_elem_lt he i
      omega
    have He1 : ∀ e, Node.elem e ∈ cs →
        elementNormalized (normalizeElementF e).1 = true := by
      intro e he
      rw [elementNormalized_children]
      exact (ih e (hmem e he)).1
    have He4 : ∀ e, Node.elem e ∈ cs → elementNormalized e = true →
        normalizeElementF e = (e, false) :=
      fun e he => (ih e (hmem e he)).2.2.2.2
    have He5 : ∀ e, Node.elem e ∈ cs →
        textOfElement (normalizeElementF e).1 = textOfElement e :=
      fun e he => (ih e (hmem e he)).2.2.2.1
    have hd : elementNormalized (Element.mk i cs) = true →
        normalizeElementF (Element.mk i cs) = (Element.mk i cs, false) := by
      intro hn
      rw [elementNormalized_mk] at hn
      have hfold := normChildren_fixpoint cs He4 [] false hn
        (by simp [lastIsTextNotBR])
      rw [normalizeElementF_mk, hfold]
      simp
    cases hb : (normChildren cs [] false).2 with
    | false =>
      obtain ⟨-, hfst, hfix⟩ := normChildren_snd_false cs [] false hb
      have hne : normalizeElement (Element.mk i cs) = Element.mk i cs := by
        simp [normalizeElement, normalizeElementF_mk, hb]
      rw [hne]
      refine ⟨?_, rfl, ?_, rfl, hd⟩
      · have hres := normChildren_result_normalized cs He1 [] false
          childrenNormalized_nil
        rw [hfst] at hres
        simpa [Element.children_mk] using hres
      · rw [Element.children_mk]
        symm
        apply map_self_of_mem
        intro x hx
        obtain ⟨a, ha, hax⟩ := List.mem_filterMap.mp hx
        have hax2 : a = Node.elem x := by
          cases a with
          | elem e' =>
            rw [childElem_elem, Option.some.injEq] at hax
            rw [hax]
          | text s => rw [childElem_text] at hax; exact absurd hax (by simp)
        rw [hax2] at ha
        have hxx := hfix x ha
        simp only [normalizeElement]
        rw [hxx]
    | true =>
      have hne : normalizeElement (Element.mk i cs) =
          Element.mk i (normChildren cs [] false).1 := by
        simp [normalizeElement, normalizeElementF_mk, hb]
      rw [hne]
      refine ⟨?_, ?_, ?_, ?_, hd⟩
      · simpa [Element.children_mk] using
          normChildren_result_normalized cs He1 [] false childrenNormalized_nil
      · simpa [Element.children_mk] using normChildren_filter_BR cs [] false
      · simpa [Element.children_mk, normalizeElement] using
          normChildren_filterMap_elem cs [] false
      · simpa [textOfElement_mk, textOfNodes_nil] using
          normChildren_textOf cs He5 [] false

/-- Claim C3: `normalizeElement` merges every run of consecutive non-BR text
siblings (the result subtree has no two adjacent non-BR texts and the concatenated
text characters are preserved), keeps every BR text sibling as its own node (the BR
texts of the child list are preserved exactly), recurses into element children in
order, and returns the identical element reference (unchanged element, false change
flag) whenever no change occurred anywhere in the subtree, i.e. whenever the subtree
was already normalized. -/
theorem claimC3_normalize (E : Element) :
    elementNormalized (normalizeElement E) = true ∧
    (normalizeElement E).children.filter isTextBR = E.children.filter isTextBR ∧
    (normalizeElement E).children.filterMap childElem =
      (E.children.filterMap childElem).map normalizeElement ∧
    textOfElement (normalizeElement E) = textOfElement E ∧
    (elementNormalized E = true → normalizeElementF E = (E, false)) := by
  obtain ⟨h1, h2, h3, h4, h5⟩ := norm_props (sizeOf E) E le_rfl
  exact ⟨by rw [elementNormalized_children]; exact h1, h2, h3, h4, h5⟩

/-- Witness for claim C3's theorem: an already-normalized element (text, BR text,
element child) is returned unchanged with a false change flag. -/
theorem claimC3_witness :
    normalizeElementF
      (Element.mk "r"
        [Node.text "a", Node.text "", Node.elem (Element.mk "q" [Node.text "x"])]) =
      (Element.mk "r"
        [Node.text "a", Node.text "", Node.elem (Element.mk "q" [Node.text "x"])],
        false) :=
  (claimC3_normalize
      (Element.mk "r"
        [Node.text "a", Node.text "",
          Node.elem (Element.mk "q" [Node.text "x"])])).2.2.2.2 (by rfl)

/-- Claim C4: normalization is idempotent with reference equality — normalizing an
already-normalized result returns the identical object (same element, false change
flag), so `normalizeElement (normalizeElement E) = normalizeElement E`. -/
theorem claimC4_idempotent (E : Element) :
    normalizeElement (normalizeElement E) = normalizeElement E ∧
    normalizeElementF (normalizeElement E) = (normalizeElement E, false) := by
  have h1 := (norm_props (sizeOf E) E le_rfl).1
  have hd := (norm_props (sizeOf (normalizeElement E)) (normalizeElement E)
    le_rfl).2.2.2.2
  have hp : normalizeElementF (normalizeElement E) = (normalizeElement E, false) :=
    hd (by rw [elementNormalized_children]; exact h1)
  refine ⟨?_, hp⟩
  have hp2 := hp
  simp only [normalizeElement] at hp2 ⊢
  rw [hp2]

end Evolu
